import Mathlib

/-
Verification of the reflection and argument-normalization utilities of the
DeepTrack2 `deeptrack.utils` module: the capability probe `hasmethod`
(spec name `has_callable_member`), the sequence normalizer `as_list`
(spec name `to_sequence`), and the keyword-parameter extractor
`get_kwarg_names`.  The repository material only shows these functions
being called from a tutorial notebook; the operations themselves are
modelled from the specification, as shallow executable embeddings.
-/

namespace DeepTrackUtils

/-! ## Capability probe -/

/-- Modelled from the spec: the subject of `has_callable_member` is an
arbitrary runtime value queried for a named attribute.  The only facts the
probe reads are which member names the value exposes and whether each such
member is invokable, so a subject is embedded as a finite association from
member names to an is-invokable flag.  (`utils.hasmethod` itself is not in
the supplied source; only the tutorial notebook that calls it is.) -/
structure Subject where
  members : List (String × Bool)
deriving DecidableEq

/-- Modelled from the spec: `has_callable_member(subject, name)` returns
true if and only if `subject` exposes a member accessible under `name` and
that member is invokable; a missing member or a non-invokable member gives
the normal result `false`, never a failure (the function is total). -/
def hasmethod (subject : Subject) (name : String) : Bool :=
  match subject.members.lookup name with
  | some isCallable => isCallable
  | none => false

/-- Modelled from the spec: the runtime list value `[1]` used in the
literal examples.  It exposes the built-in non-invokable documentation
attribute `__doc__` and the invokable method `append`, and exposes no
member named `my_func`. -/
def listSubject : Subject :=
  ⟨[("__doc__", false), ("append", true)]⟩

/-! ## Sequence normalizer -/

/-- Modelled from the spec: the transient input of `to_sequence`,
classified as the spec directs into an ordered multi-element-capable
sequence container (not a text string), a text string (a list of
characters), or an atomic non-iterable scalar (the none value, a number,
or a custom object with no iteration capability). -/
inductive Value where
  | vseq : List Value → Value
  | vstr : List Char → Value
  | vnone : Value
  | vint : Int → Value
  | vobj : Nat → Value

/-- An atomic, non-iterable scalar: not a sequence container and not a
text string. -/
def isAtom : Value → Bool
  | Value.vseq _ => false
  | Value.vstr _ => false
  | _ => true

/-- Modelled from the spec: `to_sequence(value)` (the module's `as_list`).
A sequence container is returned as the canonical ordered sequence of its
elements; a text string is decomposed into its individual one-character
strings in original order; any other value is wrapped as a single-element
sequence, unmodified. -/
def to_sequence : Value → List Value
  | Value.vseq xs => xs
  | Value.vstr cs => cs.map (fun c => Value.vstr [c])
  | v => [v]

/-! ## Keyword-parameter extractor -/

/-- Modelled from the spec: the kind of a declared parameter, one of
positional-or-keyword, keyword-only, variadic-positional collector, or
variadic-keyword collector. -/
inductive ParamKind where
  | positionalOrKeyword
  | keywordOnly
  | varPositional
  | varKeyword
deriving DecidableEq

/-- Modelled from the spec: a declared parameter of a callable signature,
carrying its name, its kind, and whether it carries a default value. -/
structure Param where
  name : String
  kind : ParamKind
  hasDefault : Bool
deriving DecidableEq

/-- Modelled from the spec: the failure kind raised when a callable's
parameter declaration cannot be obtained. -/
inductive IntrospectionError where
  | notIntrospectable
deriving DecidableEq

/-- Modelled from the spec: the input of `get_kwarg_names` is either an
introspectable callable, from which the ordered parameter declaration can
be obtained, or a value that is not introspectable (for example not
callable at all). -/
inductive CallableValue where
  | introspectable : List Param → CallableValue
  | notCallable : CallableValue
deriving DecidableEq

/-- Whether the declaration contains a variadic-positional-collector
parameter. -/
def hasVarArgs (ps : List Param) : Bool :=
  ps.any (fun p => p.kind == ParamKind.varPositional)

/-- The parameters declared after the first variadic-positional collector
of the declaration (empty when there is none). -/
def afterVarArgs : List Param → List Param
  | [] => []
  | p :: ps =>
    if p.kind == ParamKind.varPositional then ps else afterVarArgs ps

/-- Modelled from the spec: the keyword-parameter policy applied to an
ordered parameter declaration.  With a variadic-positional collector
present, only the keyword-only parameters declared after the collector are
kept; with no collector, all parameters other than variadic-keyword
collectors are kept; names are returned in declaration order. -/
def kwargNamesOfSignature (ps : List Param) : List String :=
  if hasVarArgs ps then
    ((afterVarArgs ps).filter
      (fun p => p.kind == ParamKind.keywordOnly)).map Param.name
  else
    (ps.filter (fun p => p.kind != ParamKind.varKeyword)).map Param.name

/-- Modelled from the spec: `get_kwarg_names(callable)` returns the names
of the parameters the callable accepts by keyword, and fails with an
`IntrospectionError` kind when the input's parameter declaration cannot be
obtained; the failure is propagated, never replaced by an empty result. -/
def get_kwarg_names : CallableValue → Except IntrospectionError (List String)
  | CallableValue.introspectable ps => Except.ok (kwargNamesOfSignature ps)
  | CallableValue.notCallable =>
      Except.error IntrospectionError.notIntrospectable

/-- The declaration of the tutorial's
`func1(arg1, arg2, kwarg1=None, kwarg2=1)`. -/
def func1Params : List Param :=
  [⟨"arg1", ParamKind.positionalOrKeyword, false⟩,
   ⟨"arg2", ParamKind.positionalOrKeyword, false⟩,
   ⟨"kwarg1", ParamKind.positionalOrKeyword, true⟩,
   ⟨"kwarg2", ParamKind.positionalOrKeyword, true⟩]

/-- The declaration of the tutorial's
`func2(arg1, arg2, *args, kwarg1=None, kwarg2=1, **kwargs)`. -/
def func2Params : List Param :=
  [⟨"arg1", ParamKind.positionalOrKeyword, false⟩,
   ⟨"arg2", ParamKind.positionalOrKeyword, false⟩,
   ⟨"args", ParamKind.varPositional, false⟩,
   ⟨"kwarg1", ParamKind.keywordOnly, true⟩,
   ⟨"kwarg2", ParamKind.keywordOnly, true⟩,
   ⟨"kwargs", ParamKind.varKeyword, false⟩]

/-! ## Helper lemmas -/

/-- Dropping a prefix free of variadic-positional collectors, the
parameters after the collector are exactly those declared after it. -/
lemma afterVarArgs_append (pre post : List Param) (collector : Param)
    (hpre : ∀ p ∈ pre, p.kind ≠ ParamKind.varPositional)
    (hc : collector.kind = ParamKind.varPositional) :
    afterVarArgs (pre ++ collector :: post) = post := by
  induction pre with
  | nil =>
      simp [afterVarArgs, hc]
  | cons q qs ih =>
      have hq : q.kind ≠ ParamKind.varPositional := hpre q (by simp)
      have hqs : ∀ p ∈ qs, p.kind ≠ ParamKind.varPositional :=
        fun p hp => hpre p (by simp [hp])
      simpa [afterVarArgs, hq] using ih hqs

/-- A declaration containing a variadic-positional collector is detected
by `hasVarArgs`. -/
lemma hasVarArgs_of_mem (ps : List Param) (collector : Param)
    (hmem : collector ∈ ps)
    (hc : collector.kind = ParamKind.varPositional) :
    hasVarArgs ps = true := by
  simp only [hasVarArgs, List.any_eq_true]
  exact ⟨collector, hmem, by simp [hc]⟩

/-! ## Claim theorems -/

/-- C1: For every callable whose declaration contains a
variadic-positional-collector parameter, `get_kwarg_names` returns exactly
the names of the keyword-only parameters declared after that collector, in
declaration order, excluding the collector itself and any
variadic-keyword-collector; parameters declared before the collector are
excluded. -/
theorem get_kwarg_names_with_varargs (pre post : List Param)
    (collector : Param)
    (hpre : ∀ p ∈ pre, p.kind ≠ ParamKind.varPositional)
    (hc : collector.kind = ParamKind.varPositional) :
    get_kwarg_names (CallableValue.introspectable (pre ++ collector :: post)) =
      Except.ok ((post.filter
        (fun p => p.kind == ParamKind.keywordOnly)).map Param.name) := by
  have hv : hasVarArgs (pre ++ collector :: post) = true :=
    hasVarArgs_of_mem _ collector (by simp) hc
  simp [get_kwarg_names, kwargNamesOfSignature, hv,
    afterVarArgs_append pre post collector hpre hc]

/-- Witness for C1: the tutorial's
`func2(arg1, arg2, *args, kwarg1=None, kwarg2=1, **kwargs)` yields
`["kwarg1", "kwarg2"]`. -/
theorem get_kwarg_names_with_varargs_witness :
    get_kwarg_names (CallableValue.introspectable func2Params) =
      Except.ok ["kwarg1", "kwarg2"] := by
  have h := get_kwarg_names_with_varargs
      [⟨"arg1", ParamKind.positionalOrKeyword, false⟩,
       ⟨"arg2", ParamKind.positionalOrKeyword, false⟩]
      [⟨"kwarg1", ParamKind.keywordOnly, true⟩,
       ⟨"kwarg2", ParamKind.keywordOnly, true⟩,
       ⟨"kwargs", ParamKind.varKeyword, false⟩]
      ⟨"args", ParamKind.varPositional, false⟩
      (by decide) rfl
  exact h.trans rfl

/-- C2: For every callable whose declaration contains no
variadic-positional-collector parameter, `get_kwarg_names` returns the
names of all declared parameters that are not variadic-keyword-collectors,
in declaration order; ordinary positional-or-keyword parameters are
included whether or not they carry a default value (the result is
unchanged when every default flag is rewritten). -/
theorem get_kwarg_names_no_varargs (ps : List Param)
    (h : hasVarArgs ps = false) :
    get_kwarg_names (CallableValue.introspectable ps) =
      Except.ok ((ps.filter
        (fun p => p.kind != ParamKind.varKeyword)).map Param.name) ∧
    ∀ d : Bool,
      get_kwarg_names (CallableValue.introspectable
          (ps.map (fun p => ⟨p.name, p.kind, d⟩))) =
        get_kwarg_names (CallableValue.introspectable ps) := by
  constructor
  · simp [get_kwarg_names, kwargNamesOfSignature, h]
  · intro d
    have h2 : hasVarArgs (ps.map fun p => (⟨p.name, p.kind, d⟩ : Param))
        = false := by
      simpa [hasVarArgs, List.any_map, Function.comp] using h
    simp only [get_kwarg_names, kwargNamesOfSignature, h, h2,
      Bool.false_eq_true, if_false, List.filter_map, List.map_map]
    rfl

/-- Witness for C2: the tutorial's
`func1(arg1, arg2, kwarg1=None, kwarg2=1)` yields
`["arg1", "arg2", "kwarg1", "kwarg2"]`. -/
theorem get_kwarg_names_no_varargs_witness :
    get_kwarg_names (CallableValue.introspectable func1Params) =
      Except.ok ["arg1", "arg2", "kwarg1", "kwarg2"] := by
  have h := (get_kwarg_names_no_varargs func1Params (by decide)).1
  exact h.trans rfl

/-- C3: `get_kwarg_names` fails with an `IntrospectionError` kind exactly
when its input is not introspectable, and the failure is propagated rather
than replaced by an empty result: an empty result arises only for an
introspectable callable whose signature has zero eligible parameters. -/
theorem get_kwarg_names_error_iff (c : CallableValue) :
    ((∃ e, get_kwarg_names c = Except.error e) ↔
      c = CallableValue.notCallable) ∧
    (get_kwarg_names c = Except.ok [] →
      ∃ ps, c = CallableValue.introspectable ps ∧
        kwargNamesOfSignature ps = []) := by
  cases c with
  | introspectable ps =>
      constructor
      · constructor
        · rintro ⟨e, he⟩
          simp [get_kwarg_names] at he
        · intro h
          cases h
      · intro h
        refine ⟨ps, rfl, ?_⟩
        simpa [get_kwarg_names] using h
  | notCallable =>
      constructor
      · exact ⟨fun _ => rfl,
          fun _ => ⟨IntrospectionError.notIntrospectable, rfl⟩⟩
      · intro h
        simp [get_kwarg_names] at h

/-- Witness for C3: a non-callable input makes `get_kwarg_names` fail with
the introspection error. -/
theorem get_kwarg_names_error_iff_witness :
    get_kwarg_names CallableValue.notCallable =
      Except.error IntrospectionError.notIntrospectable := by
  obtain ⟨e, he⟩ :=
    (get_kwarg_names_error_iff CallableValue.notCallable).1.mpr rfl
  cases e
  exact he

/-- C4: `has_callable_member(o, n)` is true exactly when `o` exposes a
member under `n` and that member is invokable; in particular, on the list
`[1]`, the name `my_func` (absent) gives false, `__doc__` (present but not
invokable) gives false, and `append` (present and invokable) gives
true. -/
theorem hasmethod_iff :
    (∀ (s : Subject) (n : String),
      hasmethod s n = true ↔ s.members.lookup n = some true) ∧
    hasmethod listSubject "my_func" = false ∧
    hasmethod listSubject "__doc__" = false ∧
    hasmethod listSubject "append" = true := by
  refine ⟨?_, rfl, rfl, rfl⟩
  intro s n
  unfold hasmethod
  cases h : s.members.lookup n with
  | none => simp
  | some c => cases c <;> simp

/-- C5: `has_callable_member` never fails for a missing member: for every
subject and name whose member is absent, the result is the normal value
false. -/
theorem hasmethod_missing_false (s : Subject) (n : String)
    (h : s.members.lookup n = none) : hasmethod s n = false := by
  simp [hasmethod, h]

/-- Witness for C5: the list `[1]` has no member `my_func`, and the probe
reports false rather than failing. -/
theorem hasmethod_missing_false_witness :
    hasmethod listSubject "my_func" = false :=
  hasmethod_missing_false listSubject "my_func" (by decide)

/-- C6: for every text string, `to_sequence` returns the ordered sequence
of its individual one-character strings in original order; in particular
`to_sequence("str") = ["s", "t", "r"]`. -/
theorem to_sequence_string (cs : List Char) :
    (∀ i : Nat, (to_sequence (Value.vstr cs)).get? i =
      (cs.get? i).map (fun c => Value.vstr [c])) ∧
    to_sequence (Value.vstr ['s', 't', 'r']) =
      [Value.vstr ['s'], Value.vstr ['t'], Value.vstr ['r']] := by
  refine ⟨?_, rfl⟩
  intro i
  simp [to_sequence]

/-- C7: `to_sequence` is total and its output is a sequence whose length
is zero exactly when the input was the empty container or the empty
string, and at least one otherwise. -/
theorem to_sequence_total_length (v : Value) :
    (to_sequence v).length = 0 ↔
      v = Value.vseq [] ∨ v = Value.vstr [] := by
  cases v <;> simp [to_sequence]

/-- C8: for every non-string sequence container, `to_sequence` returns
exactly its elements, preserving order and count, without deduplication;
in particular `to_sequence((1,)) = [1]`. -/
theorem to_sequence_seq (xs : List Value) :
    to_sequence (Value.vseq xs) = xs ∧
    to_sequence (Value.vseq [Value.vint 1]) = [Value.vint 1] :=
  ⟨rfl, rfl⟩

/-- C9: for every atomic scalar `x`, `to_sequence x = [x]` with `x`
unmodified, and the round-trip
`to_sequence (to_sequence x [0]) = to_sequence x` holds. -/
theorem to_sequence_atom (v : Value) (ha : isAtom v = true) :
    to_sequence v = [v] ∧
    ∀ h : 0 < (to_sequence v).length,
      to_sequence ((to_sequence v).get ⟨0, h⟩) = to_sequence v := by
  cases v with
  | vseq xs => simp [isAtom] at ha
  | vstr cs => simp [isAtom] at ha
  | vnone => exact ⟨rfl, fun _ => rfl⟩
  | vint n => exact ⟨rfl, fun _ => rfl⟩
  | vobj o => exact ⟨rfl, fun _ => rfl⟩

/-- Witness for C9: the scalar `1` becomes the one-element sequence `[1]`,
and the round-trip through its first element is stable. -/
theorem to_sequence_atom_witness :
    to_sequence (Value.vint 1) = [Value.vint 1] ∧
    to_sequence ((to_sequence (Value.vint 1)).get
      ⟨0, by simp [to_sequence]⟩) = to_sequence (Value.vint 1) := by
  obtain ⟨h1, h2⟩ := to_sequence_atom (Value.vint 1) rfl
  exact ⟨h1, h2 _⟩

/-- C10: `to_sequence` is idempotent on every input: re-normalizing its
own output (already in canonical sequence form) changes nothing. -/
theorem to_sequence_idem (v : Value) :
    to_sequence (Value.vseq (to_sequence v)) = to_sequence v := rfl

end DeepTrackUtils
